import Mathlib

/-!
Verification of the expenditure-decile repository (TomSadeh/expenditure_deciles).

The repository has two source files:
* `exp_decile.py` — the decile-lookup application: `nefesh_btl` (equivalence
  factor of a household size), `find_nearest` (nearest-boundary-from-above
  search), and the inline lookup code that normalizes an expenditure and maps
  it to a decile via the boundary table.
* `data_creation.py` — the boundary builder: weighted quantiles of normalized
  expenditures at cut points 0.1..0.9 plus a sentinel row at 1.0.

Numeric values are embedded as rationals (exact arithmetic); Python lists
become `List ℚ`; fallible operations (indexing errors, key errors) return
`Option`/`Except`.
-/

namespace ExpDeciles

set_option maxRecDepth 100000

instance : DecidableEq (Except String ℚ) := fun x y =>
  match x, y with
  | Except.error a, Except.error b =>
    if h : a = b then isTrue (by rw [h]) else isFalse (by simp [h])
  | Except.error _, Except.ok _ => isFalse (by simp)
  | Except.ok _, Except.error _ => isFalse (by simp)
  | Except.ok a, Except.ok b =>
    if h : a = b then isTrue (by rw [h]) else isFalse (by simp [h])

/-! ## Equivalence factor (`nefesh_btl`, exp_decile.py lines 62–81) -/

/-- Python list indexing `l[i]`: non-negative indices are positional,
negative indices count from the end, out-of-range raises (here: `none`). -/
def pyGet (l : List ℚ) (i : ℤ) : Option ℚ :=
  if 0 ≤ i then l.get? i.toNat
  else if 0 ≤ i + l.length then l.get? (i + l.length).toNat
  else none

/-- The fixed equivalence table `l` from `nefesh_btl`, i.e.
`[1.25, 2, 2.65, 3.2, 3.75, 4.25, 4.75, 5.2]`, written as exact fractions. -/
def btl_l : List ℚ := [5/4, 2, 53/20, 16/5, 15/4, 17/4, 19/4, 26/5]

/-- Embedding of `nefesh_btl(nefesh)`.  The source branches on
`nefesh <= len(l) - 1` (i.e. `nefesh ≤ 7`) and otherwise returns
`5.6 + (nefesh - 9) * 0.4` (here `28/5 + (nefesh - 9) * (2/5)`).  Caution:
this exact-rational embedding makes the formula coincide with the table
value `26/5` at `nefesh = 8`, whereas under the binary64 arithmetic of the
program `5.6 - 0.4` evaluates to `5854679515581644 / 2 ^ 50`
(printed `5.199999999999999`), one unit in the last place below the stored
table entry `fl(5.2) = 5854679515581645 / 2 ^ 50` — so no theorem may rely
on the coincidence at `nefesh = 8` (recorded under C3). -/
def nefesh_btl (nefesh : ℤ) : Option ℚ :=
  if nefesh ≤ (btl_l.length : ℤ) - 1 then pyGet btl_l (nefesh - 1)
  else some (28/5 + ((nefesh : ℚ) - 9) * (2/5))

/-! ## Nearest boundary search (`find_nearest`, exp_decile.py lines 83–106) -/

/-- One step of `np.argmin` over absolute distances to `v`: keep the current
best `b` unless `x` is strictly closer (so ties keep the earlier index, as
`np.argmin` returns the first occurrence of the minimum). -/
def argminStep (v : ℚ) (acc : Option ℚ) (x : ℚ) : Option ℚ :=
  match acc with
  | none => some x
  | some b => if |x - v| < |b - v| then some x else some b

/-- Embedding of `array[np.abs(array - value).argmin()]`: the element of `l`
at the first index minimising the absolute distance to `v` (`none` on an
empty array, where `argmin` raises). -/
def argminAbs (l : List ℚ) (v : ℚ) : Option ℚ :=
  l.foldl (argminStep v) none

/-- Embedding of `find_nearest(array, value)`:
return `array[0]` when `value < array[0]`, `array[-1]` when
`value >= array[-1]`, and otherwise the element of `array[array > value]`
closest to `value` (first-index tie-break, as `np.argmin`). -/
def find_nearest : List ℚ → ℚ → Option ℚ
  | [], _ => none
  | a :: rest, value =>
    if value < a then some a
    else if (a :: rest).getLast (List.cons_ne_nil a rest) ≤ value then
      some ((a :: rest).getLast (List.cons_ne_nil a rest))
    else argminAbs ((a :: rest).filter (fun x => decide (value < x))) value


/-! ## The decile lookup (exp_decile.py lines 188–221)

The boundary table `data` is a dataframe with index column `p`
(the cut points) and one numeric column per category; we embed it as the
index list paired with an association list of named columns. -/

/-- A boundary table: the index (cut points, column `p` of `limits.csv`)
and the named category columns. -/
def BTable : Type := List ℚ × List (String × List ℚ)

/-- Embedding of `data[cat]` — column lookup, `none` on a `KeyError`. -/
def getColumn (t : BTable) (cat : String) : Option (List ℚ) :=
  (t.2.find? (fun e => e.1 == cat)).map Prod.snd

/-- Embedding of line 216, `exp_pp = exp_input / persons`: the app divides
the raw expenditure by the *raw* number of persons (not by
`nefesh_btl(persons)`, which is defined but never called). -/
def exp_pp (exp_input : ℚ) (persons : ℤ) : ℚ := exp_input / (persons : ℚ)

/-- Embedding of `data.index[data[inp] == find_nearest(...)][0]`: the first
index entry whose column value equals `m` (`none` on an `IndexError`). -/
def decileIndex (index col : List ℚ) (m : ℚ) : Option ℚ :=
  ((index.zip col).find? (fun e => e.2 == m)).map Prod.fst

/-- Embedding of the decile-lookup tab (exp_decile.py lines 188–221).
The Streamlit widgets reject a number of persons outside `1..20` and an
expenditure outside `0..100000` (their `min_value`/`max_value` arguments);
an unknown category raises a `KeyError` on `data[inp]`.  The displayed
result is `decile[0] * 10` (the `int(...)` around it is the identity here,
since every cut point times 10 is a whole number). -/
def lookup (t : BTable) (persons : ℤ) (exp_input : ℚ) (cat : String) :
    Except String ℚ :=
  if persons < 1 then Except.error "persons below the widget minimum" else
  if 20 < persons then Except.error "persons above the widget maximum" else
  if exp_input < 0 then Except.error "negative expenditure rejected by the widget" else
  if 100000 < exp_input then Except.error "expenditure above the widget maximum" else
  match getColumn t cat with
  | none => Except.error "category not in the boundary table"
  | some col =>
    match find_nearest col (exp_pp exp_input persons) with
    | none => Except.error "empty boundary column"
    | some m =>
      match decileIndex t.1 col m with
      | none => Except.error "no matching index row"
      | some p => Except.ok (p * 10)

/-! ## The boundary builder (data_creation.py lines 40–60)

The builder reads the survey, normalizes every category column row-wise by
`nefeshstandartit`, computes the weighted quantiles at cut points
`0.1 .. 0.9` (`DescrStatsW(...).quantile`), renames the columns, and appends
a row at `1.0` equal to the `0.9` row plus one. -/

/-- One row of the expenditure survey: the raw expenditure per category
code, the sampling weight, and the equivalence-scaled number of persons
(`nefeshstandartit`). -/
structure SurveyRow where
  exp : String → ℚ
  weight : ℚ
  nefeshstandartit : ℚ

/-- Total of the weights of a weighted data set (value, weight). -/
def totalWeight (data : List (ℚ × ℚ)) : ℚ := (data.map Prod.snd).sum

/-- The weight mass at or below `x`: the sum of the weights of the entries
whose value is at most `x`. -/
def massLE (data : List (ℚ × ℚ)) (x : ℚ) : ℚ :=
  ((data.filter (fun e => decide (e.1 ≤ x))).map Prod.snd).sum

/-- The least element of a list (`none` when empty). -/
def listMin : List ℚ → Option ℚ
  | [] => none
  | a :: t => some (t.foldl min a)

/-- Modelled from the spec: `DescrStatsW(values, weights).quantile(p)` from
statsmodels is not part of this repository; per the spec it is the standard
weighted-quantile: order the values, accumulate weight mass, and return the
value at the target mass fraction — the inverse of the weighted empirical
CDF, i.e. the smallest data value whose accumulated weight mass reaches
`p` times the total weight. -/
def wquantile (data : List (ℚ × ℚ)) (p : ℚ) : Option ℚ :=
  listMin ((data.map Prod.fst).filter
    (fun x => decide (p * totalWeight data ≤ massLE data x)))

/-- Sequencing of a fallible computation over a list: all results, or
`none` if any call fails (the column-wise quantile evaluation of the builder). -/
def optList {α β : Type} (f : α → Option β) : List α → Option (List β)
  | [] => some []
  | a :: t =>
    match f a, optList f t with
    | some b, some bs => some (b :: bs)
    | _, _ => none

/-- The cut points `np.round(np.arange(0.1, 1, step=0.1), 1)` of
data_creation.py line 45, i.e. `[0.1, ..., 0.9]` as exact fractions. -/
def cutPoints : List ℚ :=
  [1/10, 2/10, 3/10, 4/10, 5/10, 6/10, 7/10, 8/10, 9/10]

/-- The index of the exported table: the cut points plus the appended `1.0`
row (data_creation.py line 55). -/
def tableIndex : List ℚ :=
  [1/10, 2/10, 3/10, 4/10, 5/10, 6/10, 7/10, 8/10, 9/10, 1]

/-- The weighted data of one category column after normalization:
`mbs[c]` divided by the `nefeshstandartit` column, paired with the `weight` column
(data_creation.py line 48). -/
def normalizedColumn (rows : List SurveyRow) (c : String) : List (ℚ × ℚ) :=
  rows.map (fun r => (r.exp c / r.nefeshstandartit, r.weight))

/-- One column of the output of the builder: the nine weighted quantiles of the
normalized category values, plus the sentinel entry `value at 0.9 + 1`
(data_creation.py lines 48–55). -/
def buildColumn (rows : List SurveyRow) (c : String) : Option (List ℚ) :=
  match optList (wquantile (normalizedColumn rows c)) cutPoints with
  | none => none
  | some qs => some (qs ++ [qs.getLastD 0 + 1])

/-- The whole boundary table produced by data_creation.py: the index
`0.1 .. 0.9, 1.0` and one built column per survey category. -/
def buildTable (rows : List SurveyRow) (cats : List String) : Option BTable :=
  match optList (fun c => (buildColumn rows c).map (fun col => (c, col))) cats with
  | none => none
  | some cols => some (tableIndex, cols)

/-- The boundary column of the lookup test in the spec: values
`[100, 200, ..., 900, 901]` at cut points `0.1 .. 0.9, 1.0`. -/
def c5col : List ℚ := [100, 200, 300, 400, 500, 600, 700, 800, 900, 901]

/-- The one-category boundary table of the lookup test in the spec. -/
def c5table : BTable := (tableIndex, [("c3", c5col)])

/-- A one-row valid survey used as a concrete witness input. -/
def goodRows : List SurveyRow := [⟨fun _ => 10, 1, 2⟩]

/-- A survey containing a row of weight `0 ≤ 0` — an input the spec says the
builder must reject. -/
def badRows : List SurveyRow := [⟨fun _ => 10, 1, 1⟩, ⟨fun _ => 20, 0, 1⟩]

/-! ## Lemmas about `argminAbs` and `find_nearest` -/

lemma foldl_argminStep_some (v : ℚ) :
    ∀ (t : List ℚ) (b : ℚ),
      ∃ m, t.foldl (argminStep v) (some b) = some m ∧ (m = b ∨ m ∈ t) := by
  intro t
  induction t with
  | nil => exact fun b => ⟨b, rfl, Or.inl rfl⟩
  | cons x t ih =>
    intro b
    simp only [List.foldl_cons]
    by_cases h : |x - v| < |b - v|
    · obtain ⟨m, hm, hmem⟩ := ih x
      refine ⟨m, ?_, ?_⟩
      · simpa [argminStep, h] using hm
      · rcases hmem with rfl | hmem
        · exact Or.inr (List.mem_cons_self _ _)
        · exact Or.inr (List.mem_cons_of_mem _ hmem)
    · obtain ⟨m, hm, hmem⟩ := ih b
      refine ⟨m, ?_, ?_⟩
      · simpa [argminStep, h] using hm
      · rcases hmem with rfl | hmem
        · exact Or.inl rfl
        · exact Or.inr (List.mem_cons_of_mem _ hmem)

lemma foldl_argminStep_keep (v : ℚ) :
    ∀ (t : List ℚ) (b : ℚ), (∀ x ∈ t, ¬ |x - v| < |b - v|) →
      t.foldl (argminStep v) (some b) = some b := by
  intro t
  induction t with
  | nil => exact fun b _ => rfl
  | cons x t ih =>
    intro b h
    have hx : ¬ |x - v| < |b - v| := h x (List.mem_cons_self _ _)
    simp only [List.foldl_cons, argminStep, if_neg hx]
    exact ih b (fun y hy => h y (List.mem_cons_of_mem _ hy))

lemma argminAbs_eq_head (v a : ℚ) (t : List ℚ)
    (h : ∀ x ∈ t, |a - v| ≤ |x - v|) :
    argminAbs (a :: t) v = some a := by
  unfold argminAbs
  simp only [List.foldl_cons, argminStep]
  exact foldl_argminStep_keep v t a (fun x hx => not_lt.mpr (h x hx))

lemma sorted_head_le {a : ℚ} {t : List ℚ} (hs : (a :: t).Sorted (· ≤ ·)) :
    ∀ x ∈ a :: t, a ≤ x := by
  intro x hx
  rcases List.mem_cons.mp hx with rfl | hx
  · exact le_refl x
  · exact (List.sorted_cons.mp hs).1 x hx

lemma sorted_le_getLast :
    ∀ {l : List ℚ} (h : l ≠ []), l.Sorted (· ≤ ·) → ∀ x ∈ l, x ≤ l.getLast h
  | [], h, _, _, _ => absurd rfl h
  | [a], _, _, x, hx => by
    rcases List.mem_singleton.mp hx with rfl
    exact le_refl x
  | a :: b :: t, _, hs, x, hx => by
    rw [List.getLast_cons (List.cons_ne_nil b t)]
    rcases List.mem_cons.mp hx with rfl | hx
    · exact (List.sorted_cons.mp hs).1 _ (List.getLast_mem (List.cons_ne_nil b t))
    · exact sorted_le_getLast (List.cons_ne_nil b t) (List.sorted_cons.mp hs).2 x hx

lemma sorted_filter {l : List ℚ} (hs : l.Sorted (· ≤ ·)) (p : ℚ → Bool) :
    (l.filter p).Sorted (· ≤ ·) :=
  List.Pairwise.sublist (List.filter_sublist l) hs

/-- Characterization of `find_nearest` on a sorted non-empty array: it
returns an element of the array, which is either the least element strictly
greater than the searched value, or the last element when the value is at or
above it. -/
lemma find_nearest_sorted {l : List ℚ} (hne : l ≠ []) (hs : l.Sorted (· ≤ ·))
    (v : ℚ) :
    ∃ m, find_nearest l v = some m ∧ m ∈ l ∧
      ((v < m ∧ ∀ x ∈ l, v < x → m ≤ x) ∨
        (m = l.getLast hne ∧ l.getLast hne ≤ v)) := by
  obtain ⟨a, rest, rfl⟩ := List.exists_cons_of_ne_nil hne
  by_cases h1 : v < a
  · refine ⟨a, ?_, List.mem_cons_self _ _, Or.inl ⟨h1, ?_⟩⟩
    · simp only [find_nearest, if_pos h1]
    · exact fun x hx _ => sorted_head_le hs x hx
  · by_cases h2 : (a :: rest).getLast (List.cons_ne_nil a rest) ≤ v
    · refine ⟨(a :: rest).getLast (List.cons_ne_nil a rest), ?_,
        List.getLast_mem _, Or.inr ⟨rfl, h2⟩⟩
      simp only [find_nearest, if_neg h1, if_pos h2]
    · have hlast : v < (a :: rest).getLast (List.cons_ne_nil a rest) :=
        not_le.mp h2
      set filtered := (a :: rest).filter (fun x => decide (v < x)) with hfil
      have hmemlast : (a :: rest).getLast (List.cons_ne_nil a rest) ∈ filtered := by
        rw [hfil, List.mem_filter]
        exact ⟨List.getLast_mem _, decide_eq_true hlast⟩
      have hfilne : filtered ≠ [] := List.ne_nil_of_mem hmemlast
      obtain ⟨h0, t0, hft⟩ := List.exists_cons_of_ne_nil hfilne
      have hfs : filtered.Sorted (· ≤ ·) := sorted_filter hs _
      have hgt : ∀ x ∈ filtered, v < x := by
        intro x hx
        rw [hfil, List.mem_filter] at hx
        exact of_decide_eq_true hx.2
      have hh0 : v < h0 := hgt h0 (hft ▸ List.mem_cons_self _ _)
      have hmin : ∀ x ∈ filtered, h0 ≤ x := by
        rw [hft] at hfs ⊢
        exact sorted_head_le hfs
      have hres : argminAbs filtered v = some h0 := by
        rw [hft]
        refine argminAbs_eq_head v h0 t0 (fun x hx => ?_)
        have hx' : x ∈ filtered := hft ▸ List.mem_cons_of_mem _ hx
        have h0x : h0 ≤ x := hmin x hx'
        have hvx : v < x := hgt x hx'
        rw [abs_of_pos (sub_pos.mpr hh0), abs_of_pos (sub_pos.mpr hvx)]
        exact sub_le_sub_right h0x v
      refine ⟨h0, ?_, ?_, Or.inl ⟨hh0, ?_⟩⟩
      · simp only [find_nearest, if_neg h1, if_neg h2]
        exact hres
      · exact List.mem_of_mem_filter (hft ▸ List.mem_cons_self h0 t0 : h0 ∈ filtered)
      · intro x hx hvx
        refine hmin x ?_
        rw [hfil, List.mem_filter]
        exact ⟨hx, decide_eq_true hvx⟩

/-- C4: on an ascending array with at least two elements, `find_nearest`
returns the first element when the value is below it, the last element when
the value is at or above it, and otherwise the minimum element strictly
greater than the value — so a value equal to a boundary selects the
next-higher boundary (strict-inequality tie-break). -/
theorem find_nearest_boundary_rule (l : List ℚ) (v : ℚ) (hne : l ≠ [])
    (hs : l.Sorted (· ≤ ·)) (hlen : 2 ≤ l.length) :
    (v < l.head hne → find_nearest l v = some (l.head hne)) ∧
    (l.getLast hne ≤ v → find_nearest l v = some (l.getLast hne)) ∧
    (l.head hne ≤ v → v < l.getLast hne →
      ∃ m, find_nearest l v = some m ∧ m ∈ l ∧ v < m ∧
        ∀ x ∈ l, v < x → m ≤ x) := by
  obtain ⟨a, rest, rfl⟩ := List.exists_cons_of_ne_nil hne
  refine ⟨?_, ?_, ?_⟩
  · intro h1
    simp only [List.head_cons] at h1 ⊢
    simp only [find_nearest, if_pos h1]
  · intro hlev
    have hav : a ≤ v :=
      le_trans (sorted_le_getLast hne hs a (List.mem_cons_self a rest)) hlev
    have h1 : ¬ v < a := not_lt.mpr hav
    simp only [find_nearest, if_neg h1, if_pos hlev]
  · intro _ hlt
    obtain ⟨m, heq, hmem, hc⟩ := find_nearest_sorted hne hs v
    rcases hc with ⟨hvm, hmin⟩ | ⟨_, hc2⟩
    · exact ⟨m, heq, hmem, hvm, hmin⟩
    · exact absurd hlt (not_lt.mpr hc2)

theorem find_nearest_boundary_rule_witness :
    find_nearest [(1 : ℚ), 2, 3] 0 = some 1 := by
  have h := (find_nearest_boundary_rule [(1 : ℚ), 2, 3] 0 (by simp)
    (by decide) (by decide)).1 (by norm_num)
  simpa using h

/-- C9: on a sorted non-empty array, `find_nearest` always succeeds and
returns an element of the array (in particular the interior
argmin-indexing branch operates on a non-empty filtered array). -/
theorem find_nearest_total (l : List ℚ) (v : ℚ) (hs : l.Sorted (· ≤ ·))
    (hne : l ≠ []) :
    ∃ m, find_nearest l v = some m ∧ m ∈ l := by
  obtain ⟨m, h1, h2, -⟩ := find_nearest_sorted hne hs v
  exact ⟨m, h1, h2⟩

theorem find_nearest_total_witness :
    ∃ m, find_nearest [(1 : ℚ), 2] (3/2) = some m ∧ m ∈ [(1 : ℚ), 2] :=
  find_nearest_total [(1 : ℚ), 2] (3/2) (by decide) (by simp)

/-- C10: on a fixed sorted non-empty array, `find_nearest` is monotone
non-decreasing in the searched value. -/
theorem find_nearest_mono (l : List ℚ) (v1 v2 : ℚ) (hs : l.Sorted (· ≤ ·))
    (hne : l ≠ []) (h12 : v1 ≤ v2) :
    ∃ m1 m2, find_nearest l v1 = some m1 ∧ find_nearest l v2 = some m2 ∧
      m1 ≤ m2 := by
  obtain ⟨m1, e1, mem1, hc1⟩ := find_nearest_sorted hne hs v1
  obtain ⟨m2, e2, mem2, hc2⟩ := find_nearest_sorted hne hs v2
  refine ⟨m1, m2, e1, e2, ?_⟩
  rcases hc2 with ⟨hv2, hmin2⟩ | ⟨rfl, hle2⟩
  · rcases hc1 with ⟨hv1, hmin1⟩ | ⟨rfl, hle1⟩
    · exact hmin1 m2 mem2 (lt_of_le_of_lt h12 hv2)
    · exact absurd (lt_of_le_of_lt (le_trans hle1 h12) hv2)
        (not_lt.mpr (sorted_le_getLast hne hs m2 mem2))
  · exact sorted_le_getLast hne hs m1 mem1

theorem find_nearest_mono_witness :
    ∃ m1 m2, find_nearest [(1 : ℚ), 2, 3] 1 = some m1 ∧
      find_nearest [(1 : ℚ), 2, 3] 2 = some m2 ∧ m1 ≤ m2 :=
  find_nearest_mono [(1 : ℚ), 2, 3] 1 2 (by decide) (by simp) (by norm_num)

/-! ## Lemmas about `listMin`, `wquantile` and `optList` -/

lemma foldl_min_le_init : ∀ (t : List ℚ) (a : ℚ), t.foldl min a ≤ a
  | [], a => le_refl a
  | x :: t, a => le_trans (foldl_min_le_init t (min a x)) (min_le_left a x)

lemma foldl_min_le_mem : ∀ (t : List ℚ) (a x : ℚ), x ∈ t → t.foldl min a ≤ x
  | [], _, x, hx => absurd hx (List.not_mem_nil x)
  | y :: t, a, x, hx => by
    rcases List.mem_cons.mp hx with rfl | hx
    · exact le_trans (foldl_min_le_init t (min a x)) (min_le_right a x)
    · exact foldl_min_le_mem t (min a y) x hx

lemma foldl_min_mem : ∀ (t : List ℚ) (a : ℚ), t.foldl min a = a ∨ t.foldl min a ∈ t
  | [], a => Or.inl rfl
  | x :: t, a => by
    simp only [List.foldl_cons]
    rcases foldl_min_mem t (min a x) with h | h
    · rcases min_choice a x with hm | hm
      · exact Or.inl (h.trans hm)
      · exact Or.inr (by rw [h, hm]; exact List.mem_cons_self x t)
    · exact Or.inr (List.mem_cons_of_mem x h)

lemma listMin_spec : ∀ {l : List ℚ} {m : ℚ}, listMin l = some m →
    m ∈ l ∧ ∀ x ∈ l, m ≤ x
  | [], m, h => by cases h
  | a :: t, m, h => by
    have hm : t.foldl min a = m := by
      simpa [listMin] using h
    constructor
    · rcases foldl_min_mem t a with h' | h'
      · rw [← hm, h']; exact List.mem_cons_self a t
      · exact hm ▸ List.mem_cons_of_mem a h'
    · intro x hx
      rcases List.mem_cons.mp hx with rfl | hx
      · exact hm ▸ foldl_min_le_init t x
      · exact hm ▸ foldl_min_le_mem t a x hx

lemma listMin_isSome {l : List ℚ} (h : l ≠ []) : ∃ m, listMin l = some m := by
  obtain ⟨a, t, rfl⟩ := List.exists_cons_of_ne_nil h
  exact ⟨t.foldl min a, rfl⟩

lemma exists_ub : ∀ {l : List ℚ}, l ≠ [] → ∃ M ∈ l, ∀ x ∈ l, x ≤ M
  | [], h => absurd rfl h
  | [a], _ => ⟨a, List.mem_singleton_self a, by
      intro x hx; rcases List.mem_singleton.mp hx with rfl; exact le_refl x⟩
  | a :: b :: t, _ => by
    obtain ⟨M, hM, hub⟩ := exists_ub (List.cons_ne_nil b t)
    refine ⟨max a M, ?_, ?_⟩
    · rcases max_choice a M with hm | hm
      · rw [hm]; exact List.mem_cons_self a (b :: t)
      · rw [hm]; exact List.mem_cons_of_mem a hM
    · intro x hx
      rcases List.mem_cons.mp hx with rfl | hx
      · exact le_max_left x M
      · exact le_trans (hub x hx) (le_max_right a M)

lemma wquantile_isSome (data : List (ℚ × ℚ)) (p : ℚ) (hne : data ≠ [])
    (hT : 0 < totalWeight data) (hp : p ≤ 1) :
    ∃ q, wquantile data p = some q := by
  obtain ⟨M, hM, hub⟩ :=
    exists_ub (l := data.map Prod.fst) (by simpa using hne)
  have hmass : massLE data M = totalWeight data := by
    unfold massLE totalWeight
    rw [List.filter_eq_self.mpr
      (fun e he => decide_eq_true (hub e.1 (List.mem_map_of_mem Prod.fst he)))]
  have hMfil : M ∈ (data.map Prod.fst).filter
      (fun x => decide (p * totalWeight data ≤ massLE data x)) := by
    rw [List.mem_filter]
    refine ⟨hM, decide_eq_true ?_⟩
    rw [hmass]
    calc p * totalWeight data ≤ 1 * totalWeight data :=
          mul_le_mul_of_nonneg_right hp hT.le
      _ = totalWeight data := one_mul _
  exact listMin_isSome (List.ne_nil_of_mem hMfil)

lemma wquantile_mono (data : List (ℚ × ℚ)) (p q a b : ℚ)
    (hT : 0 ≤ totalWeight data) (hpq : p ≤ q)
    (ha : wquantile data p = some a) (hb : wquantile data q = some b) :
    a ≤ b := by
  have hb' := (listMin_spec hb).1
  rw [List.mem_filter] at hb'
  refine (listMin_spec ha).2 b ?_
  rw [List.mem_filter]
  refine ⟨hb'.1, decide_eq_true ?_⟩
  exact le_trans (mul_le_mul_of_nonneg_right hpq hT) (of_decide_eq_true hb'.2)

lemma optList_isSome {α β : Type} (f : α → Option β) :
    ∀ (l : List α), (∀ a ∈ l, ∃ b, f a = some b) →
      ∃ bs, optList f l = some bs ∧ bs.length = l.length
  | [], _ => ⟨[], rfl, rfl⟩
  | a :: t, h => by
    obtain ⟨b, hb⟩ := h a (List.mem_cons_self a t)
    obtain ⟨bs, hbs, hlen⟩ :=
      optList_isSome f t (fun x hx => h x (List.mem_cons_of_mem a hx))
    exact ⟨b :: bs, by simp [optList, hb, hbs], by simp [hlen]⟩

lemma optList_mem {α β : Type} (f : α → Option β) :
    ∀ (l : List α) (bs : List β), optList f l = some bs →
      ∀ b ∈ bs, ∃ a ∈ l, f a = some b
  | [], bs, h => by
    intro b hb
    simp only [optList] at h
    cases h
    exact absurd hb (List.not_mem_nil b)
  | a :: t, bs, h => by
    intro b hb
    cases hfa : f a with
    | none => simp [optList, hfa] at h
    | some b0 =>
      cases hrec : optList f t with
      | none => simp [optList, hfa, hrec] at h
      | some bs0 =>
        simp only [optList, hfa, hrec] at h
        cases h
        rcases List.mem_cons.mp hb with rfl | hb
        · exact ⟨a, List.mem_cons_self a t, hfa⟩
        · obtain ⟨x, hx, hfx⟩ := optList_mem f t bs0 hrec b hb
          exact ⟨x, List.mem_cons_of_mem a hx, hfx⟩

lemma optList_sorted (f : ℚ → Option ℚ)
    (hf : ∀ p q a b, p ≤ q → f p = some a → f q = some b → a ≤ b) :
    ∀ (ps qs : List ℚ), ps.Sorted (· ≤ ·) → optList f ps = some qs →
      qs.Sorted (· ≤ ·)
  | [], qs, _, h => by
    simp only [optList] at h
    cases h
    exact List.sorted_nil
  | p :: ps, qs, hs, h => by
    cases hfp : f p with
    | none => simp [optList, hfp] at h
    | some b =>
      cases hrec : optList f ps with
      | none => simp [optList, hfp, hrec] at h
      | some bs =>
        simp only [optList, hfp, hrec] at h
        cases h
        rw [List.sorted_cons]
        constructor
        · intro x hx
          obtain ⟨p', hp', hfp'⟩ := optList_mem f ps bs hrec x hx
          exact hf p p' b x ((List.sorted_cons.mp hs).1 p' hp') hfp hfp'
        · exact optList_sorted f hf ps bs (List.sorted_cons.mp hs).2 hrec

lemma optList_pair {β : Type} (g : String → Option β) :
    ∀ (cats : List String) (cols : List (String × β)),
      optList (fun c => (g c).map (fun x => (c, x))) cats = some cols →
      cols.map Prod.fst = cats ∧ ∀ e ∈ cols, g e.1 = some e.2
  | [], cols, h => by
    simp only [optList] at h
    cases h
    exact ⟨rfl, fun e he => absurd he (List.not_mem_nil e)⟩
  | c :: cats, cols, h => by
    cases hgc : g c with
    | none => simp [optList, hgc] at h
    | some x =>
      cases hrec : optList (fun c => (g c).map (fun x => (c, x))) cats with
      | none => simp [optList, hgc, hrec] at h
      | some cols0 =>
        simp only [optList, hgc, Option.map_some, hrec] at h
        cases h
        obtain ⟨hfst, hall⟩ := optList_pair g cats cols0 hrec
        refine ⟨by simp [hfst], ?_⟩
        intro e he
        rcases List.mem_cons.mp he with rfl | he
        · exact hgc
        · exact hall e he

/-! ## Lemmas about the boundary builder -/

lemma weight_sum_pos (rows : List SurveyRow) (hrows : rows ≠ [])
    (hw : ∀ r ∈ rows, 0 < r.weight) :
    0 < (rows.map SurveyRow.weight).sum := by
  refine List.sum_pos _ ?_ (by simpa using hrows)
  intro x hx
  obtain ⟨r, hr, rfl⟩ := List.mem_map.mp hx
  exact hw r hr

lemma totalWeight_normalized (rows : List SurveyRow) (c : String) :
    totalWeight (normalizedColumn rows c) = (rows.map SurveyRow.weight).sum := by
  unfold totalWeight normalizedColumn
  rw [List.map_map]
  rfl

lemma buildColumn_some (rows : List SurveyRow) (c : String) (hrows : rows ≠ [])
    (hw : 0 < (rows.map SurveyRow.weight).sum) :
    ∃ qs, optList (wquantile (normalizedColumn rows c)) cutPoints = some qs ∧
      qs.length = 9 ∧ buildColumn rows c = some (qs ++ [qs.getLastD 0 + 1]) := by
  have hdne : normalizedColumn rows c ≠ [] := by
    simp [normalizedColumn, hrows]
  have hq : ∀ p ∈ cutPoints, ∃ q, wquantile (normalizedColumn rows c) p = some q := by
    intro p hp
    refine wquantile_isSome _ p hdne (by rw [totalWeight_normalized]; exact hw) ?_
    simp only [cutPoints, List.mem_cons, List.not_mem_nil, or_false] at hp
    rcases hp with rfl | rfl | rfl | rfl | rfl | rfl | rfl | rfl | rfl <;> norm_num
  obtain ⟨qs, hqs, hlen⟩ := optList_isSome _ cutPoints hq
  refine ⟨qs, hqs, ?_, by simp [buildColumn, hqs]⟩
  rw [hlen]
  rfl

lemma buildColumns_some (rows : List SurveyRow) (cats : List String)
    (hrows : rows ≠ []) (hw : 0 < (rows.map SurveyRow.weight).sum) :
    ∀ c ∈ cats, ∃ pr, ((buildColumn rows c).map (fun col => (c, col))) = some pr := by
  intro c _
  obtain ⟨qs, -, -, hbc⟩ := buildColumn_some rows c hrows hw
  exact ⟨(c, qs ++ [qs.getLastD 0 + 1]), by rw [hbc]; rfl⟩

/-- C6: for every valid survey input (positive weights and positive
equivalence divisors), the builder produces a table with index
`0.1, ..., 0.9, 1.0` (10 rows), one column per input category, each column
of length 10 with the value at row `1.0` (position 9) equal to the value at
row `0.9` (position 8) plus exactly one — a strictly larger sentinel. -/
theorem buildTable_shape (rows : List SurveyRow) (cats : List String)
    (hrows : rows ≠ []) (hw : ∀ r ∈ rows, 0 < r.weight)
    (_hnef : ∀ r ∈ rows, 0 < r.nefeshstandartit) :
    ∃ cols, buildTable rows cats = some (tableIndex, cols) ∧
      tableIndex = [1/10, 2/10, 3/10, 4/10, 5/10, 6/10, 7/10, 8/10, 9/10, 1] ∧
      tableIndex.length = 10 ∧ cols.map Prod.fst = cats ∧
      ∀ e ∈ cols, e.2.length = 10 ∧
        ∃ q, e.2[8]? = some q ∧ e.2[9]? = some (q + 1) ∧ q < q + 1 := by
  have hsum := weight_sum_pos rows hrows hw
  obtain ⟨cols, hcols, -⟩ :=
    optList_isSome (fun c => (buildColumn rows c).map (fun col => (c, col)))
      cats (buildColumns_some rows cats hrows hsum)
  obtain ⟨hfst, hall⟩ := optList_pair (buildColumn rows) cats cols hcols
  refine ⟨cols, by simp [buildTable, hcols], rfl, rfl, hfst, ?_⟩
  intro e he
  obtain ⟨qs, -, hlen, hbc⟩ := buildColumn_some rows e.1 hrows hsum
  have hee : e.2 = qs ++ [qs.getLastD 0 + 1] :=
    Option.some_inj.mp ((hall e he).symm.trans hbc)
  rw [hee]
  have h8lt : 8 < qs.length := by rw [hlen]; norm_num
  obtain ⟨q0, hq0⟩ : ∃ q0, qs[8]? = some q0 :=
    ⟨qs[8], List.getElem?_eq_getElem h8lt⟩
  have hlast : qs.getLastD 0 = q0 := by
    rw [List.getLastD_eq_getLast?, List.getLast?_eq_getElem?, hlen]
    simp [hq0]
  refine ⟨by simp [hlen], q0, ?_, ?_, lt_add_one q0⟩
  · rw [List.getElem?_append_left h8lt]
    exact hq0
  · rw [show (9 : ℕ) = qs.length from hlen.symm, List.getElem?_concat_length,
      hlast]

theorem buildTable_shape_witness :
    ∃ cols, buildTable goodRows ["c3"] = some (tableIndex, cols) ∧
      tableIndex = [1/10, 2/10, 3/10, 4/10, 5/10, 6/10, 7/10, 8/10, 9/10, 1] ∧
      tableIndex.length = 10 ∧ cols.map Prod.fst = ["c3"] ∧
      ∀ e ∈ cols, e.2.length = 10 ∧
        ∃ q, e.2[8]? = some q ∧ e.2[9]? = some (q + 1) ∧ q < q + 1 :=
  buildTable_shape goodRows ["c3"] (by simp [goodRows])
    (by intro r hr; simp only [goodRows, List.mem_singleton] at hr
        subst hr; norm_num)
    (by intro r hr; simp only [goodRows, List.mem_singleton] at hr
        subst hr; norm_num)

/-- C7: each category column of a table built from a valid survey set is
non-decreasing over the quantile rows `0.1 .. 0.9` (the first nine
entries), because the weighted quantile is monotone in the cut point. -/
theorem buildColumn_monotone (rows : List SurveyRow) (c : String)
    (hrows : rows ≠ []) (hw : ∀ r ∈ rows, 0 < r.weight)
    (_hnef : ∀ r ∈ rows, 0 < r.nefeshstandartit) :
    ∃ col, buildColumn rows c = some col ∧ (col.take 9).Sorted (· ≤ ·) := by
  have hsum := weight_sum_pos rows hrows hw
  obtain ⟨qs, hqs, hlen, hbc⟩ := buildColumn_some rows c hrows hsum
  refine ⟨qs ++ [qs.getLastD 0 + 1], hbc, ?_⟩
  have htake : (qs ++ [qs.getLastD 0 + 1]).take 9 = qs := by
    rw [← hlen]
    exact List.take_left qs _
  rw [htake]
  have hT0 : 0 ≤ totalWeight (normalizedColumn rows c) := by
    rw [totalWeight_normalized]
    exact hsum.le
  refine optList_sorted _ ?_ cutPoints qs ?_ hqs
  · intro p q a b hpq ha hb
    exact wquantile_mono _ p q a b hT0 hpq ha hb
  · with_unfolding_all decide

theorem buildColumn_monotone_witness :
    ∃ col, buildColumn goodRows "c3" = some col ∧
      (col.take 9).Sorted (· ≤ ·) :=
  buildColumn_monotone goodRows "c3" (by simp [goodRows])
    (by intro r hr; simp only [goodRows, List.mem_singleton] at hr
        subst hr; norm_num)
    (by intro r hr; simp only [goodRows, List.mem_singleton] at hr
        subst hr; norm_num)

/-- C8 as stated is false: `badRows` contains a row with weight `0 ≤ 0`,
yet the builder still produces a boundary table instead of failing —
data_creation.py performs no input validation. -/
theorem buildTable_accepts_bad_weight :
    (∃ r ∈ badRows, r.weight ≤ 0) ∧
      (buildTable badRows ["c3"]).isSome = true := by
  constructor
  · refine ⟨(⟨fun _ => 20, 0, 1⟩ : SurveyRow), ?_, ?_⟩
    · simp [badRows]
    · norm_num
  · with_unfolding_all decide

/-- C8 amended: the builder performs no input validation — for every
non-empty survey whose total weight is positive it produces a table, even
when individual rows have weight `≤ 0` or a zero normalization divisor,
and for any requested category set. -/
theorem buildTable_no_validation (rows : List SurveyRow) (cats : List String)
    (hrows : rows ≠ []) (hw : 0 < (rows.map SurveyRow.weight).sum) :
    ∃ t, buildTable rows cats = some t := by
  obtain ⟨cols, hcols, -⟩ :=
    optList_isSome (fun c => (buildColumn rows c).map (fun col => (c, col)))
      cats (buildColumns_some rows cats hrows hw)
  exact ⟨(tableIndex, cols), by simp [buildTable, hcols]⟩

theorem buildTable_no_validation_witness :
    ∃ t, buildTable badRows ["c3", "c30"] = some t :=
  buildTable_no_validation badRows ["c3", "c30"] (by simp [badRows])
    (by simp [badRows])

/-! ## The remaining claims about the lookup application -/

/-- C3 fails on the program at `nefesh = 8`: the branch condition
`nefesh <= len(l) - 1` (that is, `nefesh ≤ 7`) routes `nefesh = 8` past the
table lookup and into the extrapolation formula, so the code never reads
the table entry `l[7]` there — it computes `5.6 - 0.4` in binary64 floats,
one unit in the last place below the stored table value `5.2`.  This
theorem evaluates the embedded code at the failing input: `8` does not
satisfy the table-branch condition, `nefesh_btl 8` is produced by the
formula branch, and the table entry the code skips is `26/5` (the
exact-rational value of the formula happens to coincide with it; the
binary64 values differ, a discrepancy outside this exact embedding). -/
theorem nefesh_btl_eight_takes_formula_branch :
    ¬ ((8 : ℤ) ≤ (btl_l.length : ℤ) - 1) ∧
    nefesh_btl 8 = some (28/5 + (((8 : ℤ) : ℚ) - 9) * (2/5)) ∧
    pyGet btl_l ((8 : ℤ) - 1) = some (26/5) := by
  with_unfolding_all decide

/-- C1 is contradicted by the code: line 216 computes
`exp_pp = exp_input / persons`, dividing by the raw number of persons
rather than by the equivalence factor `nefesh_btl(persons)` (a function the
app defines but never calls).  At one person the two normalizations differ
(`1000` against `1000 / 1.25 = 800`); the test of the spec at two persons
agrees only because `nefesh_btl 2 = 2` coincides with the raw count. -/
theorem exp_pp_ignores_nefesh_btl :
    exp_pp 1000 1 = 1000 ∧ nefesh_btl 1 = some (5/4) ∧
    (1000 : ℚ) / (5/4) = 800 ∧ exp_pp 1000 1 ≠ (1000 : ℚ) / (5/4) ∧
    exp_pp 4000 2 = 2000 := by
  with_unfolding_all decide

/-- C2: the lookup rejects every call with fewer than one person, a
negative expenditure, or a category absent from the boundary table, with a
described failure and no decile result. -/
theorem lookup_rejects_invalid (t : BTable) (persons : ℤ) (exp_input : ℚ)
    (cat : String)
    (h : persons < 1 ∨ exp_input < 0 ∨ cat ∉ t.2.map Prod.fst) :
    ∃ msg, lookup t persons exp_input cat = Except.error msg := by
  unfold lookup
  by_cases h1 : persons < 1
  · rw [if_pos h1]; exact ⟨_, rfl⟩
  rw [if_neg h1]
  by_cases h2 : 20 < persons
  · rw [if_pos h2]; exact ⟨_, rfl⟩
  rw [if_neg h2]
  by_cases h3 : exp_input < 0
  · rw [if_pos h3]; exact ⟨_, rfl⟩
  rw [if_neg h3]
  by_cases h4 : 100000 < exp_input
  · rw [if_pos h4]; exact ⟨_, rfl⟩
  rw [if_neg h4]
  have hcat : cat ∉ t.2.map Prod.fst := by
    rcases h with h | h | h
    · exact absurd h h1
    · exact absurd h h3
    · exact h
  have hnone : getColumn t cat = none := by
    unfold getColumn
    rw [List.find?_eq_none.mpr ?_]
    · rfl
    · intro e he hbe
      exact hcat (List.mem_map.mpr ⟨e, he, eq_of_beq hbe⟩)
  rw [hnone]
  exact ⟨_, rfl⟩

theorem lookup_rejects_invalid_witness :
    ∃ msg, lookup c5table 0 100 "c3" = Except.error msg :=
  lookup_rejects_invalid c5table 0 100 "c3" (Or.inl (by norm_num))

/-- C5: on the boundary column `[100, 200, ..., 900, 901]` with cut points
`0.1 .. 0.9, 1.0`, a normalized input of exactly `200` selects the boundary
`300` at cut point `0.3` and yields decile 3; an input of `50` clamps to
the first boundary and yields decile 1; an input of `5000` clamps to the
last boundary and yields decile 10. -/
theorem lookup_boundary_examples :
    find_nearest c5col 200 = some 300 ∧
    lookup c5table 1 200 "c3" = Except.ok 3 ∧
    lookup c5table 1 50 "c3" = Except.ok 1 ∧
    lookup c5table 1 5000 "c3" = Except.ok 10 := by
  with_unfolding_all decide

end ExpDeciles
